import Mathlib

/-!
Shallow embedding of `src/gradia/overlay/drawing_actions.py` (the Gradia
annotation-action layer) and proofs about it.

Conventions of the embedding:
* Python floats are modelled as rationals (`ℚ`); Python ints as `ℤ`/`ℕ`.
* Normalized points are pairs `ℚ × ℚ`.
* `math.hypot u v < c` and `math.sqrt s ≤ c` are rendered radical-free:
  for `c > 0` (resp. `0 ≤ c`) they are equivalent to the squared
  comparisons used below, which keeps every definition decidable.
* The cairo drawing context is modelled in two faithful projections of the
  same method body: the sequence of path-construction commands a `draw`
  emits (`PathCmd`), and the ambient style state it mutates (`Surface`).
* `GdkPixbuf` byte buffers are modelled as `List ℕ` with explicit width /
  height / rowstride / channel-count fields.
* Python's global `random` module is modelled as explicit generator state
  (`PyRandom.RandomState`) threaded through the code; `random.seed`
  replaces that state by a function of the seed alone.  The concrete
  generator below is a small LCG standing in for the Mersenne Twister:
  every claim proved here is independent of the particular stream.
-/

namespace Gradia

abbrev Point : Type := ℚ × ℚ

/-- Bounding box `(min_x, min_y, max_x, max_y)` in normalized space. -/
structure Bounds where
  min_x : ℚ
  min_y : ℚ
  max_x : ℚ
  max_y : ℚ
deriving DecidableEq

namespace DrawingAction

/-- `DrawingAction.DEFAULT_PADDING = 0.02`. -/
def DEFAULT_PADDING : ℚ := 2 / 100

/-- `DrawingAction.apply_padding`: expand a box by `DEFAULT_PADDING + extra_padding`
on all four sides.  (Every call site in the source passes `extra_padding = 0`.) -/
def apply_padding (bounds : Bounds) (extra_padding : ℚ) : Bounds :=
  let padding := DEFAULT_PADDING + extra_padding
  ⟨bounds.min_x - padding, bounds.min_y - padding,
   bounds.max_x + padding, bounds.max_y + padding⟩

/-- The `LineAction`/`ArrowAction` branch of `DrawingAction.contains_point`:
point-to-segment distance test.  `math.hypot dx dy < DEFAULT_PADDING` is
rendered as `dx² + dy² < DEFAULT_PADDING²` (equivalent as `DEFAULT_PADDING > 0`). -/
def contains_point_segment (start endp : Point) (width : ℚ) (x y : ℚ) : Bool :=
  let line_len_sq := (endp.1 - start.1) ^ 2 + (endp.2 - start.2) ^ 2
  if line_len_sq = 0 then
    decide ((x - start.1) ^ 2 + (y - start.2) ^ 2 < DEFAULT_PADDING ^ 2)
  else
    let t := ((x - start.1) * (endp.1 - start.1) + (y - start.2) * (endp.2 - start.2)) / line_len_sq
    let t := max 0 (min 1 t)
    let closest_x := start.1 + t * (endp.1 - start.1)
    let closest_y := start.2 + t * (endp.2 - start.2)
    let dist_sq := (x - closest_x) ^ 2 + (y - closest_y) ^ 2
    decide (dist_sq < (1 / 100 + width / 200) ^ 2)

end DrawingAction

/-- Python `min` over a nonempty list (the `[]` case is never reached by callers). -/
def listMin : List ℚ → ℚ
  | [] => 0
  | a :: t => t.foldl min a

/-- Python `max` over a nonempty list. -/
def listMax : List ℚ → ℚ
  | [] => 0
  | a :: t => t.foldl max a

namespace StrokeAction

/-- `StrokeAction.get_bounds`.  Empty stroke returns `(0, 0, 0, 0)` directly. -/
def get_bounds (stroke : List Point) : Bounds :=
  match stroke with
  | [] => ⟨0, 0, 0, 0⟩
  | p :: ps =>
    let xs := (p :: ps).map Prod.fst
    let ys := (p :: ps).map Prod.snd
    DrawingAction.apply_padding ⟨listMin xs, listMin ys, listMax xs, listMax ys⟩ 0

/-- `StrokeAction.translate`: shift every sample point. -/
def translate (stroke : List Point) (dx dy : ℚ) : List Point :=
  stroke.map fun p => (p.1 + dx, p.2 + dy)

end StrokeAction

namespace ArrowAction

/-- `ArrowAction.get_bounds` (shared by `LineAction`). -/
def get_bounds (start endp : Point) : Bounds :=
  DrawingAction.apply_padding
    ⟨min start.1 endp.1, min start.2 endp.2, max start.1 endp.1, max start.2 endp.2⟩ 0

/-- `ArrowAction.translate` (shared by `LineAction`). -/
def translate (start endp : Point) (dx dy : ℚ) : Point × Point :=
  ((start.1 + dx, start.2 + dy), (endp.1 + dx, endp.2 + dy))

end ArrowAction

namespace RectAction

/-- `RectAction.get_bounds` (shared by `CircleAction` and `CensorAction`). -/
def get_bounds (start endp : Point) : Bounds :=
  DrawingAction.apply_padding
    ⟨min start.1 endp.1, min start.2 endp.2, max start.1 endp.1, max start.2 endp.2⟩ 0

/-- `RectAction.translate`. -/
def translate (start endp : Point) (dx dy : ℚ) : Point × Point :=
  ((start.1 + dx, start.2 + dy), (endp.1 + dx, endp.2 + dy))

end RectAction

/-- Python `str.strip()` (no argument): drop leading and trailing whitespace.
Text is modelled as its character list. -/
def pyStrip (s : List Char) : List Char :=
  ((s.dropWhile Char.isWhitespace).reverse.dropWhile Char.isWhitespace).reverse

namespace TextAction

def PADDING_X : ℚ := 4
def PADDING_Y : ℚ := 2

/-- `TextAction.get_bounds`.  The Pango layout measurement of the text at the
image-native font size is an external collaborator; its reported logical
extent in pixels is passed in as `text_width_px` / `text_height_px`
(a function of `text` and the font settings only).  `image_bounds` is the
reference image pixel size.  `not self.text.strip()` is `pyStrip text = []`. -/
def get_bounds (position : Point) (text : List Char) (image_bounds : ℚ × ℚ)
    (text_width_px text_height_px : ℚ) : Bounds :=
  if pyStrip text = [] then
    ⟨position.1, position.2, position.1, position.2⟩
  else
    let reference_width := image_bounds.1
    let reference_height := image_bounds.2
    let text_width := text_width_px / reference_width
    let text_height := text_height_px / reference_height
    let padding_x_frac := PADDING_X / reference_width
    let padding_y_frac := PADDING_Y / reference_height
    let left := position.1 - text_width / 2 - padding_x_frac
    let right := position.1 + text_width / 2 + padding_x_frac
    let top := position.2 - text_height - padding_y_frac
    let bottom := position.2 + padding_y_frac
    DrawingAction.apply_padding ⟨left, top, right, bottom⟩ 0

/-- `TextAction.translate`. -/
def translate (position : Point) (dx dy : ℚ) : Point :=
  (position.1 + dx, position.2 + dy)

end TextAction

namespace NumberStampAction

/-- `NumberStampAction.contains_point`.  The source compares
`math.sqrt dist_sq ≤ r`; for a real square root this is exactly
`0 ≤ r ∧ dist_sq ≤ r²`, which is the radical-free form used here. -/
def contains_point (position : Point) (radius : ℚ) (px py : ℚ) : Bool :=
  let r := radius / 1000
  decide (0 ≤ r ∧ (px - position.1) ^ 2 + (py - position.2) ^ 2 ≤ r ^ 2)

/-- `NumberStampAction.get_bounds`. -/
def get_bounds (position : Point) (radius : ℚ) : Bounds :=
  let r := radius / 1000
  DrawingAction.apply_padding
    ⟨position.1 - r, position.2 - r, position.1 + r, position.2 + r⟩ 0

/-- `NumberStampAction.translate`. -/
def translate (position : Point) (dx dy : ℚ) : Point :=
  (position.1 + dx, position.2 + dy)

end NumberStampAction

/-! ### Path construction model (cairo path commands in view coordinates) -/

/-- One cairo path-construction call. -/
inductive PathCmd where
  | moveTo (x y : ℚ)
  | lineTo (x y : ℚ)
  | curveTo (x1 y1 x2 y2 x3 y3 : ℚ)
deriving DecidableEq

/-- The `for i in range(1, len(coords) - 1)` loop of `StrokeAction.draw`,
as a slide over consecutive point triples.  Each iteration emits
`curve_to(cp1_x, cp1_y, x1, y1, mid_x, mid_y)`; the computed `cp2` is unused
in the source and is omitted here. -/
def smoothSegs : List Point → List PathCmd
  | p0 :: p1 :: p2 :: rest =>
    let cp1_x := p0.1 + (p1.1 - p0.1) * (1 / 2)
    let cp1_y := p0.2 + (p1.2 - p0.2) * (1 / 2)
    let mid_x := (p1.1 + p2.1) / 2
    let mid_y := (p1.2 + p2.2) / 2
    PathCmd.curveTo cp1_x cp1_y p1.1 p1.2 mid_x mid_y :: smoothSegs (p1 :: p2 :: rest)
  | _ => []

/-- The path `StrokeAction.draw` builds from the transformed coords:
fewer than 2 points emits nothing; 2 points a straight segment; 3 or more
points a move to the first point, a line to the first midpoint, the
midpoint-to-midpoint curve segments, and a final line to the last point. -/
def StrokeAction.path : List Point → List PathCmd
  | [] => []
  | [_] => []
  | [p0, p1] => [PathCmd.moveTo p0.1 p0.2, PathCmd.lineTo p1.1 p1.2]
  | p0 :: p1 :: p2 :: rest =>
    let mid_x := (p0.1 + p1.1) / 2
    let mid_y := (p0.2 + p1.2) / 2
    let lst := (p2 :: rest).getLast (List.cons_ne_nil _ _)
    PathCmd.moveTo p0.1 p0.2 :: PathCmd.lineTo mid_x mid_y ::
      (smoothSegs (p0 :: p1 :: p2 :: rest) ++ [PathCmd.lineTo lst.1 lst.2])

/-- The path `HighlighterAction.draw` builds: fewer than 2 points emits
nothing; otherwise a move to the first point and a straight `line_to`
through every remaining point. -/
def HighlighterAction.path : List Point → List PathCmd
  | [] => []
  | [_] => []
  | p0 :: rest => PathCmd.moveTo p0.1 p0.2 :: rest.map fun p => PathCmd.lineTo p.1 p.2

/-! ### Surface style-state model (for compositing operator / line cap) -/

inductive CairoOperator where
  | over
  | multiply
deriving DecidableEq

inductive CairoLineCap where
  | round
  | butt
deriving DecidableEq

/-- Ambient cairo style state mutated by `draw`. -/
structure Surface where
  operator : CairoOperator
  lineCap : CairoLineCap
  sourceRgba : ℚ × ℚ × ℚ × ℚ
  lineWidth : ℚ
deriving DecidableEq

/-- The style-state effect of `HighlighterAction.draw`, mirroring the call
order of the source: early return on fewer than 2 points; otherwise set
MULTIPLY, source color, line width, BUTT cap, build and stroke the path
(no style change), then set OVER and ROUND cap. -/
def HighlighterAction.drawState (s : Surface) (stroke : List Point)
    (color : ℚ × ℚ × ℚ × ℚ) (pen_size scale : ℚ) : Surface :=
  if stroke.length < 2 then s
  else
    let s := { s with operator := CairoOperator.multiply }
    let s := { s with sourceRgba := color }
    let s := { s with lineWidth := pen_size * scale }
    let s := { s with lineCap := CairoLineCap.butt }
    let s := { s with operator := CairoOperator.over }
    let s := { s with lineCap := CairoLineCap.round }
    s

/-! ### Censor: crop region -/

/-- Python `int(...)` on a rational: truncation toward zero
(`Int` division already truncates toward zero). -/
def pyInt (q : ℚ) : ℤ := q.num / (q.den : ℤ)

structure CropRegion where
  x : ℤ
  y : ℤ
  width : ℤ
  height : ℤ
deriving DecidableEq

namespace CensorAction

/-- `CensorAction._get_crop_region`.  `w`, `h` are the background buffer's
pixel dimensions; `start`, `endp` the normalized corner points. -/
def get_crop_region (start endp : Point) (w h : ℤ) : Option CropRegion :=
  let x1 := pyInt (start.1 * w)
  let y1 := pyInt (start.2 * h)
  let x2 := pyInt (endp.1 * w)
  let y2 := pyInt (endp.2 * h)
  let x1c := max 0 (min x1 (w - 1))
  let x2c := max 0 (min x2 (w - 1))
  let y1c := max 0 (min y1 (h - 1))
  let y2c := max 0 (min y2 (h - 1))
  let xlo := min x1c x2c
  let xhi := max x1c x2c
  let ylo := min y1c y2c
  let yhi := max y1c y2c
  let crop_w := xhi - xlo + 1
  let crop_h := yhi - ylo + 1
  if crop_w ≤ 0 ∨ crop_h ≤ 0 then none
  else some ⟨xlo, ylo, crop_w, crop_h⟩

end CensorAction

/-! ### Pixel buffers and the seeded randomization pass -/

/-- Model of a `GdkPixbuf.Pixbuf`: raw bytes plus layout metadata. -/
structure Pixbuf where
  width : ℕ
  height : ℕ
  rowstride : ℕ
  nChannels : ℕ
  hasAlpha : Bool
  pixels : List ℕ
deriving DecidableEq

/-- `GdkPixbuf.Pixbuf.new_from_data(data, RGB, has_alpha, 8, w, h, stride)`:
the channel count of the constructed pixbuf is determined by the alpha flag. -/
def Pixbuf.newFromData (data : List ℕ) (hasAlpha : Bool) (w h stride : ℕ) : Pixbuf :=
  ⟨w, h, stride, if hasAlpha then 4 else 3, hasAlpha, data⟩

/-- Well-formedness of a pixbuf as guaranteed by GdkPixbuf: each row of
`width` pixels of `nChannels` bytes fits inside the rowstride, the byte
list covers every pixel, and the channel count matches the alpha flag. -/
def Pixbuf.wf (pb : Pixbuf) : Prop :=
  pb.width * pb.nChannels ≤ pb.rowstride ∧
  (pb.height - 1) * pb.rowstride + pb.width * pb.nChannels ≤ pb.pixels.length ∧
  pb.nChannels = (if pb.hasAlpha then 4 else 3)

instance (pb : Pixbuf) : Decidable pb.wf := by
  unfold Pixbuf.wf; infer_instance

/-- Byte offset of the pixel at grid position `p = (x, y)`. -/
def pixOffset (stride ch : ℕ) (p : ℕ × ℕ) : ℕ := p.2 * stride + p.1 * ch

/-- The channel tuple of the pixel at grid position `p`, read out of the
byte list (out-of-range reads default to 0, never exercised on wf buffers). -/
def pixelAt (px : List ℕ) (stride ch : ℕ) (p : ℕ × ℕ) : List ℕ :=
  (List.range ch).map fun c => px.getD (pixOffset stride ch p + c) 0

/-- Multiset of per-pixel channel tuples of a `w × h` grid over `px`. -/
def pixelMS (px : List ℕ) (w h stride ch : ℕ) : Multiset (List ℕ) :=
  (Finset.range w ×ˢ Finset.range h).val.map fun p => pixelAt px stride ch p

/-- Multiset of per-pixel channel tuples of a pixbuf. -/
def Pixbuf.pixelMultiset (pb : Pixbuf) : Multiset (List ℕ) :=
  pixelMS pb.pixels pb.width pb.height pb.rowstride pb.nChannels

namespace PyRandom

/-- Explicit model of the `random` module's hidden global generator state. -/
structure RandomState where
  state : ℕ
deriving DecidableEq

/-- `random.seed n`: the resulting state is a function of `n` alone. -/
def seed (n : ℕ) : RandomState := ⟨n % 2147483648⟩

/-- One step of the stand-in generator (an LCG on 31 bits). -/
def nextNat (g : RandomState) : ℕ × RandomState :=
  let s := (g.state * 1103515245 + 12345) % 2147483648
  (s, ⟨s⟩)

/-- `random.random()`: a rational in `[0, 1)`. -/
def random (g : RandomState) : ℚ × RandomState :=
  let ng := nextNat g
  ((ng.1 : ℚ) / 2147483648, ng.2)

/-- `random.choice l` for a nonempty list of grid positions (the source
guards the call with `if neighbors:`). -/
def choice (l : List (ℕ × ℕ)) (g : RandomState) : (ℕ × ℕ) × RandomState :=
  let ng := nextNat g
  (l.getD (ng.1 % l.length) (0, 0), ng.2)

end PyRandom

/-- The neighbor-offset table of `_randomize_pixels`. -/
def offsets : List (ℤ × ℤ) :=
  [(-1, 0), (1, 0), (0, -1), (0, 1), (-1, -1), (1, -1), (-1, 1), (1, 1)]

/-- The in-bounds neighbors of `(x, y)`, in offset-table order:
`[(x+dx, y+dy) for dx, dy in offsets if 0 <= x+dx < w and 0 <= y+dy < h]`. -/
def neighborList (w h x y : ℕ) : List (ℕ × ℕ) :=
  offsets.filterMap fun d =>
    let nx : ℤ := (x : ℤ) + d.1
    let ny : ℤ := (y : ℤ) + d.2
    if 0 ≤ nx ∧ nx < (w : ℤ) ∧ 0 ≤ ny ∧ ny < (h : ℤ) then some (nx.toNat, ny.toNat)
    else none

/-- `for c in range(channels): pixels[i1+c], pixels[i2+c] = pixels[i2+c], pixels[i1+c]`. -/
def swapBytes (px : List ℕ) (i1 i2 ch : ℕ) : List ℕ :=
  (List.range ch).foldl
    (fun p c =>
      let a := p.getD (i1 + c) 0
      let b := p.getD (i2 + c) 0
      (p.set (i1 + c) b).set (i2 + c) a)
    px

/-- The body of the per-pixel loop of `_randomize_pixels` at cell `(x, y)`:
draw `random.random()`; with probability 0.3 pick a uniform in-bounds
neighbor and swap all channel bytes of the two pixels. -/
def randomizeCell (w h stride ch x y : ℕ) (s : List ℕ × PyRandom.RandomState) :
    List ℕ × PyRandom.RandomState :=
  let rg := PyRandom.random s.2
  if rg.1 < 3 / 10 then
    let neighbors := neighborList w h x y
    if neighbors = [] then (s.1, rg.2)
    else
      let cg := PyRandom.choice neighbors rg.2
      let i1 := pixOffset stride ch (x, y)
      let i2 := pixOffset stride ch cg.1
      (swapBytes s.1 i1 i2 ch, cg.2)
  else (s.1, rg.2)

/-- The `for y in range(h): for x in range(w):` double loop of
`_randomize_pixels` over the byte buffer and generator state. -/
def randomizeLoop (w h stride ch : ℕ) (px : List ℕ) (g : PyRandom.RandomState) :
    List ℕ × PyRandom.RandomState :=
  (List.range h).foldl
    (fun acc y => (List.range w).foldl (fun acc2 x => randomizeCell w h stride ch x y acc2) acc)
    (px, g)

/-- `CensorAction._randomize_pixels`.  The ambient generator state `g0` is
the hidden global state of the `random` module on entry; the first statement
of the source, `random.seed(42)`, replaces it.  The result pixbuf is rebuilt
from the mutated byte copy with the input's alpha flag, dimensions and
rowstride. -/
def CensorAction.randomize_pixels (g0 : PyRandom.RandomState) (pixbuf : Pixbuf) :
    Pixbuf × PyRandom.RandomState :=
  let _ := g0
  let g := PyRandom.seed 42
  let res := randomizeLoop pixbuf.width pixbuf.height pixbuf.rowstride pixbuf.nChannels
    pixbuf.pixels g
  (Pixbuf.newFromData res.1 pixbuf.hasAlpha pixbuf.width pixbuf.height pixbuf.rowstride, res.2)

/-! ## Helper lemmas -/

theorem foldl_min_le_init (t : List ℚ) (a : ℚ) : t.foldl min a ≤ a := by
  induction t generalizing a with
  | nil => exact le_refl a
  | cons b t ih => exact le_trans (ih (min a b)) (min_le_left a b)

theorem foldl_min_le_mem (t : List ℚ) (a x : ℚ) (hx : x ∈ t) : t.foldl min a ≤ x := by
  induction t generalizing a with
  | nil => cases hx
  | cons b t ih =>
    rcases List.mem_cons.1 hx with rfl | hx'
    · exact le_trans (foldl_min_le_init t (min a x)) (min_le_right a x)
    · exact ih (min a b) hx'

theorem foldl_min_mem (t : List ℚ) (a : ℚ) : t.foldl min a = a ∨ t.foldl min a ∈ t := by
  induction t generalizing a with
  | nil => exact Or.inl rfl
  | cons b t ih =>
    rw [List.foldl_cons]
    rcases ih (min a b) with h | h
    · rcases min_choice a b with hab | hab
      · exact Or.inl (by rw [h, hab])
      · exact Or.inr (by rw [h, hab]; exact List.mem_cons_self b t)
    · exact Or.inr (List.mem_cons_of_mem b h)

theorem foldl_max_le_init (t : List ℚ) (a : ℚ) : a ≤ t.foldl max a := by
  induction t generalizing a with
  | nil => exact le_refl a
  | cons b t ih => exact le_trans (le_max_left a b) (ih (max a b))

theorem foldl_max_le_mem (t : List ℚ) (a x : ℚ) (hx : x ∈ t) : x ≤ t.foldl max a := by
  induction t generalizing a with
  | nil => cases hx
  | cons b t ih =>
    rcases List.mem_cons.1 hx with rfl | hx'
    · exact le_trans (le_max_right a x) (foldl_max_le_init t (max a x))
    · exact ih (max a b) hx'

theorem foldl_max_mem (t : List ℚ) (a : ℚ) : t.foldl max a = a ∨ t.foldl max a ∈ t := by
  induction t generalizing a with
  | nil => exact Or.inl rfl
  | cons b t ih =>
    rw [List.foldl_cons]
    rcases ih (max a b) with h | h
    · rcases max_choice a b with hab | hab
      · exact Or.inl (by rw [h, hab])
      · exact Or.inr (by rw [h, hab]; exact List.mem_cons_self b t)
    · exact Or.inr (List.mem_cons_of_mem b h)

theorem listMin_le (l : List ℚ) (x : ℚ) (hx : x ∈ l) : listMin l ≤ x := by
  match l with
  | a :: t =>
    rcases List.mem_cons.1 hx with rfl | h
    · exact foldl_min_le_init t x
    · exact foldl_min_le_mem t a x h

theorem le_listMax (l : List ℚ) (x : ℚ) (hx : x ∈ l) : x ≤ listMax l := by
  match l with
  | a :: t =>
    rcases List.mem_cons.1 hx with rfl | h
    · exact foldl_max_le_init t x
    · exact foldl_max_le_mem t a x h

theorem listMin_mem (l : List ℚ) (hl : l ≠ []) : listMin l ∈ l := by
  match l with
  | a :: t =>
    rcases foldl_min_mem t a with h | h
    · rw [listMin, h]; exact List.mem_cons_self a t
    · exact List.mem_cons_of_mem a (by rw [listMin]; exact h)

theorem listMax_mem (l : List ℚ) (hl : l ≠ []) : listMax l ∈ l := by
  match l with
  | a :: t =>
    rcases foldl_max_mem t a with h | h
    · rw [listMax, h]; exact List.mem_cons_self a t
    · exact List.mem_cons_of_mem a (by rw [listMax]; exact h)

/-! ## C2: `_get_crop_region` is total and well-formed for nonempty buffers -/

/-- C2: for every background buffer with `w ≥ 1` and `h ≥ 1` and every pair of
normalized corner points (including corners fully outside the buffer),
`_get_crop_region` returns a crop rectangle — never `None` — with
`0 ≤ x`, `0 ≤ y`, `width ≥ 1`, `height ≥ 1`, `x + width ≤ w`,
`y + height ≤ h`; the non-positive-size abort branch is unreachable. -/
theorem get_crop_region_total (start endp : Point) (w h : ℤ)
    (hw : 1 ≤ w) (hh : 1 ≤ h) :
    ∃ r : CropRegion, CensorAction.get_crop_region start endp w h = some r ∧
      0 ≤ r.x ∧ 0 ≤ r.y ∧ 1 ≤ r.width ∧ 1 ≤ r.height ∧
      r.x + r.width ≤ w ∧ r.y + r.height ≤ h := by
  simp only [CensorAction.get_crop_region]
  rw [if_neg (by omega)]
  refine ⟨_, rfl, ?_, ?_, ?_, ?_, ?_, ?_⟩ <;> (dsimp only; omega)

/-- Witness for C2 at a concrete input (corners partly outside a 4×5 buffer). -/
theorem get_crop_region_total_witness :
    ∃ r : CropRegion,
      CensorAction.get_crop_region ((1 : ℚ) / 2, (1 : ℚ) / 2) (2, 3) 4 5 = some r ∧
      0 ≤ r.x ∧ 0 ≤ r.y ∧ 1 ≤ r.width ∧ 1 ≤ r.height ∧
      r.x + r.width ≤ 4 ∧ r.y + r.height ≤ 5 :=
  get_crop_region_total ((1 : ℚ) / 2, (1 : ℚ) / 2) (2, 3) 4 5 (by decide) (by decide)

/-! ## C7: translation composes additively and is undone by its inverse -/

/-- C7: for every variant, `translate a b` then `translate c d` equals
`translate (a+c) (b+d)` on the stored geometry, and `translate a b` then
`translate (-a) (-b)` restores the original geometry exactly. -/
theorem translate_compose_and_inverse (stroke : List Point) (s e pos : Point) (a b c d : ℚ) :
    (StrokeAction.translate (StrokeAction.translate stroke a b) c d
        = StrokeAction.translate stroke (a + c) (b + d)) ∧
    (ArrowAction.translate (ArrowAction.translate s e a b).1 (ArrowAction.translate s e a b).2 c d
        = ArrowAction.translate s e (a + c) (b + d)) ∧
    (RectAction.translate (RectAction.translate s e a b).1 (RectAction.translate s e a b).2 c d
        = RectAction.translate s e (a + c) (b + d)) ∧
    (TextAction.translate (TextAction.translate pos a b) c d
        = TextAction.translate pos (a + c) (b + d)) ∧
    (NumberStampAction.translate (NumberStampAction.translate pos a b) c d
        = NumberStampAction.translate pos (a + c) (b + d)) ∧
    (StrokeAction.translate (StrokeAction.translate stroke a b) (-a) (-b) = stroke) ∧
    (ArrowAction.translate (ArrowAction.translate s e a b).1 (ArrowAction.translate s e a b).2
        (-a) (-b) = (s, e)) ∧
    (RectAction.translate (RectAction.translate s e a b).1 (RectAction.translate s e a b).2
        (-a) (-b) = (s, e)) ∧
    (TextAction.translate (TextAction.translate pos a b) (-a) (-b) = pos) ∧
    (NumberStampAction.translate (NumberStampAction.translate pos a b) (-a) (-b) = pos) := by
  refine ⟨?_, ?_, ?_, ?_, ?_, ?_, ?_, ?_, ?_, ?_⟩
  · unfold StrokeAction.translate
    rw [List.map_map]
    refine List.map_congr_left fun p _ => ?_
    simp only [Function.comp_apply, Prod.mk.injEq]
    exact ⟨by ring, by ring⟩
  · simp only [ArrowAction.translate, Prod.mk.injEq]
    exact ⟨⟨by ring, by ring⟩, by ring, by ring⟩
  · simp only [RectAction.translate, Prod.mk.injEq]
    exact ⟨⟨by ring, by ring⟩, by ring, by ring⟩
  · simp only [TextAction.translate, Prod.mk.injEq]
    exact ⟨by ring, by ring⟩
  · simp only [NumberStampAction.translate, Prod.mk.injEq]
    exact ⟨by ring, by ring⟩
  · unfold StrokeAction.translate
    rw [List.map_map]
    rw [List.map_congr_left (g := fun p => p) fun p _ => ?_, List.map_id']
    simp only [Function.comp_apply, Prod.ext_iff]
    exact ⟨by ring, by ring⟩
  · simp only [ArrowAction.translate, Prod.ext_iff, Prod.mk.injEq]
    exact ⟨⟨by ring, by ring⟩, by ring, by ring⟩
  · simp only [RectAction.translate, Prod.ext_iff, Prod.mk.injEq]
    exact ⟨⟨by ring, by ring⟩, by ring, by ring⟩
  · simp only [TextAction.translate, Prod.ext_iff]
    exact ⟨by ring, by ring⟩
  · simp only [NumberStampAction.translate, Prod.ext_iff]
    exact ⟨by ring, by ring⟩

/-! ## C8: Arrow/Line point-to-segment hit test -/

/-- C8: for Arrow/Line actions, `contains_point` is true exactly when the
squared distance to the clamped projection onto the segment is strictly below
`(0.01 + width/200)²`; in the degenerate `start = end` case it is true exactly
when the (squared) distance to `start` is strictly below `DEFAULT_PADDING = 0.02`
(squared).  The source branches on `line_len_sq == 0`, which holds iff
`start = end`. -/
theorem segment_contains_point_iff (start endp : Point) (width x y : ℚ) :
    DrawingAction.contains_point_segment start endp width x y = true ↔
      (if start = endp then
        (x - start.1) ^ 2 + (y - start.2) ^ 2 < DrawingAction.DEFAULT_PADDING ^ 2
      else
        (let t := max 0 (min 1
            (((x - start.1) * (endp.1 - start.1) + (y - start.2) * (endp.2 - start.2)) /
              ((endp.1 - start.1) ^ 2 + (endp.2 - start.2) ^ 2)));
          (x - (start.1 + t * (endp.1 - start.1))) ^ 2 +
            (y - (start.2 + t * (endp.2 - start.2))) ^ 2 < (1 / 100 + width / 200) ^ 2)) := by
  have hiff : (endp.1 - start.1) ^ 2 + (endp.2 - start.2) ^ 2 = 0 ↔ start = endp := by
    constructor
    · intro h0
      have h1 : endp.1 - start.1 = 0 := by
        nlinarith [sq_nonneg (endp.1 - start.1), sq_nonneg (endp.2 - start.2)]
      have h2 : endp.2 - start.2 = 0 := by
        nlinarith [sq_nonneg (endp.1 - start.1), sq_nonneg (endp.2 - start.2)]
      exact (Prod.ext_iff.2 ⟨by linarith, by linarith⟩)
    · intro h; rw [h]; ring
  simp only [DrawingAction.contains_point_segment]
  by_cases hse : start = endp
  · rw [if_pos (hiff.2 hse), if_pos hse, decide_eq_true_eq]
  · rw [if_neg (fun hc => hse (hiff.1 hc)), if_neg hse, decide_eq_true_eq]

/-! ## C9: NumberStamp circular hit test against radius / 1000 -/

/-- C9: `NumberStampAction.contains_point` is true exactly when the distance
to the anchor is at most `radius / 1000` (stated on squares; no padding is
applied), and in particular is true at the exact anchor. -/
theorem number_stamp_contains_point_spec (position : Point) (radius px py : ℚ)
    (hr : 0 ≤ radius) :
    (NumberStampAction.contains_point position radius px py = true ↔
      (px - position.1) ^ 2 + (py - position.2) ^ 2 ≤ (radius / 1000) ^ 2) ∧
    NumberStampAction.contains_point position radius position.1 position.2 = true := by
  have hr' : (0 : ℚ) ≤ radius / 1000 := by positivity
  constructor
  · simp only [NumberStampAction.contains_point, decide_eq_true_eq]
    exact ⟨fun h => h.2, fun h => ⟨hr', h⟩⟩
  · simp only [NumberStampAction.contains_point, decide_eq_true_eq]
    refine ⟨hr', ?_⟩
    have h0 : (position.1 - position.1) ^ 2 + (position.2 - position.2) ^ 2 = 0 := by ring
    rw [h0]
    positivity

/-- Witness for C9 at a concrete stamp (anchor `(0,0)`, radius 20). -/
theorem number_stamp_contains_point_spec_witness :
    (0 : ℚ) ≤ 20 ∧
    ((NumberStampAction.contains_point (0, 0) 20 (1 / 100) 0 = true ↔
        ((1 : ℚ) / 100 - (0, (0 : ℚ)).1) ^ 2 + ((0 : ℚ) - (0, (0 : ℚ)).2) ^ 2 ≤ (20 / 1000) ^ 2) ∧
      NumberStampAction.contains_point (0, 0) 20 (0, (0 : ℚ)).1 (0, (0 : ℚ)).2 = true) :=
  ⟨by norm_num, number_stamp_contains_point_spec (0, 0) 20 (1 / 100) 0 (by norm_num)⟩

/-! ## C6: Highlighter does not reuse Stroke's smoothed path -/

/-- C6 counterexample: on the 3-point sequence `(0,0), (1,0), (0,1)` the path
Highlighter's `draw` constructs differs from the midpoint-smoothed path
Stroke's `draw` constructs. -/
theorem highlighter_path_differs_from_stroke :
    HighlighterAction.path [((0 : ℚ), (0 : ℚ)), (1, 0), (0, 1)] ≠
      StrokeAction.path [((0 : ℚ), (0 : ℚ)), (1, 0), (0, 1)] := by
  simp [HighlighterAction.path, StrokeAction.path, smoothSegs]

/-- C6 amended: for every sequence of 3 or more points, Highlighter's `draw`
constructs a straight polyline (a move to the first point then a `line_to`
through each subsequent point), which always differs from the
midpoint-smoothed path Stroke's `draw` constructs (whose third command is a
`curve_to`). -/
theorem highlighter_path_polyline (p0 p1 p2 : Point) (rest : List Point) :
    HighlighterAction.path (p0 :: p1 :: p2 :: rest) =
      PathCmd.moveTo p0.1 p0.2 :: (p1 :: p2 :: rest).map (fun p => PathCmd.lineTo p.1 p.2) ∧
    HighlighterAction.path (p0 :: p1 :: p2 :: rest) ≠ StrokeAction.path (p0 :: p1 :: p2 :: rest) := by
  constructor
  · rfl
  · intro hcontra
    have h2 := congrArg (fun l => l.getD 2 (PathCmd.moveTo 0 0)) hcontra
    simp only [HighlighterAction.path, StrokeAction.path, smoothSegs, List.map_cons,
      List.cons_append, List.getD_cons_zero, List.getD_cons_succ] at h2
    exact PathCmd.noConfusion h2

/-! ## C1: the pixel-swap pass is deterministic under the fixed seed -/

/-- C1: `_randomize_pixels` reseeds the random source with the fixed seed 42
at the start of each call, so its output is independent of the ambient
generator state: two runs on byte-identical inputs (same width, height,
rowstride, channel count, bytes) produce byte-identical output buffers. -/
theorem randomize_pixels_deterministic (g1 g2 : PyRandom.RandomState) (pb : Pixbuf) :
    CensorAction.randomize_pixels g1 pb = CensorAction.randomize_pixels g2 pb := rfl

/-! ## C4: bounds are padded tight boxes — except for degenerate geometry -/

/-- C4 counterexample: `StrokeAction.get_bounds` on the empty point list
returns `(0, 0, 0, 0)` directly, which is not `apply_padding` of any box with
`min_x ≤ max_x`: the claimed inflation by `DEFAULT_PADDING` does not happen. -/
theorem empty_stroke_bounds_unpadded :
    ¬ ∃ t : Bounds, t.min_x ≤ t.max_x ∧
      StrokeAction.get_bounds [] = DrawingAction.apply_padding t 0 := by
  rintro ⟨t, hle, heq⟩
  simp only [StrokeAction.get_bounds, DrawingAction.apply_padding,
    DrawingAction.DEFAULT_PADDING, Bounds.mk.injEq] at heq
  obtain ⟨h1, -, h3, -⟩ := heq
  linarith

/-- C4 amended: for nonempty geometry every variant's `get_bounds` is the
tight bounding box of the stored geometry inflated by exactly
`DEFAULT_PADDING` (plus, for Text, the background padding ratios
`PADDING_X / ref_width` and `PADDING_Y / ref_height` as variant-specific
extra inflation); but an empty point list (Stroke/Highlighter) yields the
unpadded box `(0, 0, 0, 0)` and empty or whitespace-only text yields the
unpadded zero-area box at the anchor. -/
theorem get_bounds_padded_amended
    (p : Point) (ps : List Point) (s e pos : Point) (text blank : List Char)
    (image_bounds : ℚ × ℚ) (tw th radius : ℚ)
    (htext : pyStrip text ≠ []) (hblank : pyStrip blank = []) :
    (∃ t : Bounds,
        (∀ q ∈ p :: ps, t.min_x ≤ q.1 ∧ q.1 ≤ t.max_x ∧ t.min_y ≤ q.2 ∧ q.2 ≤ t.max_y) ∧
        (∃ q ∈ p :: ps, q.1 = t.min_x) ∧ (∃ q ∈ p :: ps, q.1 = t.max_x) ∧
        (∃ q ∈ p :: ps, q.2 = t.min_y) ∧ (∃ q ∈ p :: ps, q.2 = t.max_y) ∧
        StrokeAction.get_bounds (p :: ps) = DrawingAction.apply_padding t 0) ∧
    StrokeAction.get_bounds [] = ⟨0, 0, 0, 0⟩ ∧
    ArrowAction.get_bounds s e =
      DrawingAction.apply_padding ⟨min s.1 e.1, min s.2 e.2, max s.1 e.1, max s.2 e.2⟩ 0 ∧
    RectAction.get_bounds s e =
      DrawingAction.apply_padding ⟨min s.1 e.1, min s.2 e.2, max s.1 e.1, max s.2 e.2⟩ 0 ∧
    TextAction.get_bounds pos text image_bounds tw th =
      DrawingAction.apply_padding
        ⟨(pos.1 - (tw / image_bounds.1) / 2) - TextAction.PADDING_X / image_bounds.1,
         (pos.2 - th / image_bounds.2) - TextAction.PADDING_Y / image_bounds.2,
         (pos.1 + (tw / image_bounds.1) / 2) + TextAction.PADDING_X / image_bounds.1,
         pos.2 + TextAction.PADDING_Y / image_bounds.2⟩ 0 ∧
    TextAction.get_bounds pos blank image_bounds tw th = ⟨pos.1, pos.2, pos.1, pos.2⟩ ∧
    NumberStampAction.get_bounds pos radius =
      DrawingAction.apply_padding
        ⟨pos.1 - radius / 1000, pos.2 - radius / 1000,
         pos.1 + radius / 1000, pos.2 + radius / 1000⟩ 0 := by
  refine ⟨⟨⟨listMin ((p :: ps).map Prod.fst), listMin ((p :: ps).map Prod.snd),
      listMax ((p :: ps).map Prod.fst), listMax ((p :: ps).map Prod.snd)⟩,
      ?_, ?_, ?_, ?_, ?_, rfl⟩, rfl, rfl, rfl, ?_, ?_, rfl⟩
  · intro q hq
    exact ⟨listMin_le _ _ (List.mem_map_of_mem Prod.fst hq),
      le_listMax _ _ (List.mem_map_of_mem Prod.fst hq),
      listMin_le _ _ (List.mem_map_of_mem Prod.snd hq),
      le_listMax _ _ (List.mem_map_of_mem Prod.snd hq)⟩
  · obtain ⟨q, hq, hq'⟩ := List.mem_map.1 (listMin_mem ((p :: ps).map Prod.fst) (by simp))
    exact ⟨q, hq, hq'⟩
  · obtain ⟨q, hq, hq'⟩ := List.mem_map.1 (listMax_mem ((p :: ps).map Prod.fst) (by simp))
    exact ⟨q, hq, hq'⟩
  · obtain ⟨q, hq, hq'⟩ := List.mem_map.1 (listMin_mem ((p :: ps).map Prod.snd) (by simp))
    exact ⟨q, hq, hq'⟩
  · obtain ⟨q, hq, hq'⟩ := List.mem_map.1 (listMax_mem ((p :: ps).map Prod.snd) (by simp))
    exact ⟨q, hq, hq'⟩
  · simp only [TextAction.get_bounds, if_neg htext]
  · simp only [TextAction.get_bounds, if_pos hblank]

/-- Witness for the amended C4 at concrete inputs. -/
theorem get_bounds_padded_amended_witness :
    (∃ t : Bounds,
        (∀ q ∈ [((0 : ℚ), (0 : ℚ))],
          t.min_x ≤ q.1 ∧ q.1 ≤ t.max_x ∧ t.min_y ≤ q.2 ∧ q.2 ≤ t.max_y) ∧
        (∃ q ∈ [((0 : ℚ), (0 : ℚ))], q.1 = t.min_x) ∧
        (∃ q ∈ [((0 : ℚ), (0 : ℚ))], q.1 = t.max_x) ∧
        (∃ q ∈ [((0 : ℚ), (0 : ℚ))], q.2 = t.min_y) ∧
        (∃ q ∈ [((0 : ℚ), (0 : ℚ))], q.2 = t.max_y) ∧
        StrokeAction.get_bounds [((0 : ℚ), (0 : ℚ))] = DrawingAction.apply_padding t 0) ∧
    StrokeAction.get_bounds [] = ⟨0, 0, 0, 0⟩ ∧
    ArrowAction.get_bounds ((0 : ℚ), (0 : ℚ)) ((0 : ℚ), (0 : ℚ)) =
      DrawingAction.apply_padding
        ⟨min ((0 : ℚ), (0 : ℚ)).1 ((0 : ℚ), (0 : ℚ)).1, min ((0 : ℚ), (0 : ℚ)).2 ((0 : ℚ), (0 : ℚ)).2,
         max ((0 : ℚ), (0 : ℚ)).1 ((0 : ℚ), (0 : ℚ)).1, max ((0 : ℚ), (0 : ℚ)).2 ((0 : ℚ), (0 : ℚ)).2⟩ 0 ∧
    RectAction.get_bounds ((0 : ℚ), (0 : ℚ)) ((0 : ℚ), (0 : ℚ)) =
      DrawingAction.apply_padding
        ⟨min ((0 : ℚ), (0 : ℚ)).1 ((0 : ℚ), (0 : ℚ)).1, min ((0 : ℚ), (0 : ℚ)).2 ((0 : ℚ), (0 : ℚ)).2,
         max ((0 : ℚ), (0 : ℚ)).1 ((0 : ℚ), (0 : ℚ)).1, max ((0 : ℚ), (0 : ℚ)).2 ((0 : ℚ), (0 : ℚ)).2⟩ 0 ∧
    TextAction.get_bounds ((0 : ℚ), (0 : ℚ)) ['a'] (1, 1) 0 0 =
      DrawingAction.apply_padding
        ⟨(((0 : ℚ), (0 : ℚ)).1 - ((0 : ℚ) / ((1 : ℚ), (1 : ℚ)).1) / 2) -
            TextAction.PADDING_X / ((1 : ℚ), (1 : ℚ)).1,
         (((0 : ℚ), (0 : ℚ)).2 - (0 : ℚ) / ((1 : ℚ), (1 : ℚ)).2) -
            TextAction.PADDING_Y / ((1 : ℚ), (1 : ℚ)).2,
         (((0 : ℚ), (0 : ℚ)).1 + ((0 : ℚ) / ((1 : ℚ), (1 : ℚ)).1) / 2) +
            TextAction.PADDING_X / ((1 : ℚ), (1 : ℚ)).1,
         ((0 : ℚ), (0 : ℚ)).2 + TextAction.PADDING_Y / ((1 : ℚ), (1 : ℚ)).2⟩ 0 ∧
    TextAction.get_bounds ((0 : ℚ), (0 : ℚ)) [] (1, 1) 0 0 =
      ⟨((0 : ℚ), (0 : ℚ)).1, ((0 : ℚ), (0 : ℚ)).2, ((0 : ℚ), (0 : ℚ)).1, ((0 : ℚ), (0 : ℚ)).2⟩ ∧
    NumberStampAction.get_bounds ((0 : ℚ), (0 : ℚ)) 0 =
      DrawingAction.apply_padding
        ⟨((0 : ℚ), (0 : ℚ)).1 - (0 : ℚ) / 1000, ((0 : ℚ), (0 : ℚ)).2 - (0 : ℚ) / 1000,
         ((0 : ℚ), (0 : ℚ)).1 + (0 : ℚ) / 1000, ((0 : ℚ), (0 : ℚ)).2 + (0 : ℚ) / 1000⟩ 0 :=
  get_bounds_padded_amended ((0 : ℚ), (0 : ℚ)) [] ((0 : ℚ), (0 : ℚ)) ((0 : ℚ), (0 : ℚ))
    ((0 : ℚ), (0 : ℚ)) ['a'] [] (1, 1) 0 0 0 (by decide) (by decide)

/-! ## C5: bounds are always ordered, even for degenerate geometry -/

/-- C5: for every variant and every geometry (including degenerate zero-size
geometry), `get_bounds` returns a box with `min_x ≤ max_x` and
`min_y ≤ max_y` (for Text under nonnegative measured extents and positive
reference dimensions; for NumberStamp under a nonnegative configured radius). -/
theorem get_bounds_min_le_max
    (stroke : List Point) (s e pos : Point) (text : List Char)
    (image_bounds : ℚ × ℚ) (tw th radius : ℚ)
    (htw : 0 ≤ tw) (hth : 0 ≤ th)
    (hib1 : 0 < image_bounds.1) (hib2 : 0 < image_bounds.2) (hrad : 0 ≤ radius) :
    ((StrokeAction.get_bounds stroke).min_x ≤ (StrokeAction.get_bounds stroke).max_x ∧
      (StrokeAction.get_bounds stroke).min_y ≤ (StrokeAction.get_bounds stroke).max_y) ∧
    ((ArrowAction.get_bounds s e).min_x ≤ (ArrowAction.get_bounds s e).max_x ∧
      (ArrowAction.get_bounds s e).min_y ≤ (ArrowAction.get_bounds s e).max_y) ∧
    ((RectAction.get_bounds s e).min_x ≤ (RectAction.get_bounds s e).max_x ∧
      (RectAction.get_bounds s e).min_y ≤ (RectAction.get_bounds s e).max_y) ∧
    ((TextAction.get_bounds pos text image_bounds tw th).min_x ≤
        (TextAction.get_bounds pos text image_bounds tw th).max_x ∧
      (TextAction.get_bounds pos text image_bounds tw th).min_y ≤
        (TextAction.get_bounds pos text image_bounds tw th).max_y) ∧
    ((NumberStampAction.get_bounds pos radius).min_x ≤
        (NumberStampAction.get_bounds pos radius).max_x ∧
      (NumberStampAction.get_bounds pos radius).min_y ≤
        (NumberStampAction.get_bounds pos radius).max_y) := by
  refine ⟨?_, ?_, ?_, ?_, ?_⟩
  · cases stroke with
    | nil =>
      simp only [StrokeAction.get_bounds]
      exact ⟨le_refl 0, le_refl 0⟩
    | cons p ps =>
      have hx1 : listMin ((p :: ps).map Prod.fst) ≤ p.1 := listMin_le _ _ (by simp)
      have hx2 : p.1 ≤ listMax ((p :: ps).map Prod.fst) := le_listMax _ _ (by simp)
      have hy1 : listMin ((p :: ps).map Prod.snd) ≤ p.2 := listMin_le _ _ (by simp)
      have hy2 : p.2 ≤ listMax ((p :: ps).map Prod.snd) := le_listMax _ _ (by simp)
      simp only [StrokeAction.get_bounds, DrawingAction.apply_padding,
        DrawingAction.DEFAULT_PADDING]
      constructor <;> linarith
  · simp only [ArrowAction.get_bounds, DrawingAction.apply_padding,
      DrawingAction.DEFAULT_PADDING]
    constructor <;>
      linarith [min_le_max (a := s.1) (b := e.1), min_le_max (a := s.2) (b := e.2)]
  · simp only [RectAction.get_bounds, DrawingAction.apply_padding,
      DrawingAction.DEFAULT_PADDING]
    constructor <;>
      linarith [min_le_max (a := s.1) (b := e.1), min_le_max (a := s.2) (b := e.2)]
  · by_cases hb : pyStrip text = []
    · simp only [TextAction.get_bounds, if_pos hb]
      exact ⟨le_refl _, le_refl _⟩
    · have h1 : 0 ≤ tw / image_bounds.1 := div_nonneg htw hib1.le
      have h2 : 0 ≤ th / image_bounds.2 := div_nonneg hth hib2.le
      have h3 : 0 ≤ (4 : ℚ) / image_bounds.1 := by positivity
      have h4 : 0 ≤ (2 : ℚ) / image_bounds.2 := by positivity
      simp only [TextAction.get_bounds, if_neg hb, DrawingAction.apply_padding,
        TextAction.PADDING_X, TextAction.PADDING_Y, DrawingAction.DEFAULT_PADDING]
      constructor <;> linarith
  · have h5 : 0 ≤ radius / 1000 := by positivity
    simp only [NumberStampAction.get_bounds, DrawingAction.apply_padding,
      DrawingAction.DEFAULT_PADDING]
    constructor <;> linarith

/-- Witness for C5 at concrete inputs (degenerate zero-size geometry). -/
theorem get_bounds_min_le_max_witness :
    ((StrokeAction.get_bounds []).min_x ≤ (StrokeAction.get_bounds []).max_x ∧
      (StrokeAction.get_bounds []).min_y ≤ (StrokeAction.get_bounds []).max_y) ∧
    ((ArrowAction.get_bounds ((0 : ℚ), (0 : ℚ)) ((0 : ℚ), (0 : ℚ))).min_x ≤
        (ArrowAction.get_bounds ((0 : ℚ), (0 : ℚ)) ((0 : ℚ), (0 : ℚ))).max_x ∧
      (ArrowAction.get_bounds ((0 : ℚ), (0 : ℚ)) ((0 : ℚ), (0 : ℚ))).min_y ≤
        (ArrowAction.get_bounds ((0 : ℚ), (0 : ℚ)) ((0 : ℚ), (0 : ℚ))).max_y) ∧
    ((RectAction.get_bounds ((0 : ℚ), (0 : ℚ)) ((0 : ℚ), (0 : ℚ))).min_x ≤
        (RectAction.get_bounds ((0 : ℚ), (0 : ℚ)) ((0 : ℚ), (0 : ℚ))).max_x ∧
      (RectAction.get_bounds ((0 : ℚ), (0 : ℚ)) ((0 : ℚ), (0 : ℚ))).min_y ≤
        (RectAction.get_bounds ((0 : ℚ), (0 : ℚ)) ((0 : ℚ), (0 : ℚ))).max_y) ∧
    ((TextAction.get_bounds ((0 : ℚ), (0 : ℚ)) [] (1, 1) 0 0).min_x ≤
        (TextAction.get_bounds ((0 : ℚ), (0 : ℚ)) [] (1, 1) 0 0).max_x ∧
      (TextAction.get_bounds ((0 : ℚ), (0 : ℚ)) [] (1, 1) 0 0).min_y ≤
        (TextAction.get_bounds ((0 : ℚ), (0 : ℚ)) [] (1, 1) 0 0).max_y) ∧
    ((NumberStampAction.get_bounds ((0 : ℚ), (0 : ℚ)) 0).min_x ≤
        (NumberStampAction.get_bounds ((0 : ℚ), (0 : ℚ)) 0).max_x ∧
      (NumberStampAction.get_bounds ((0 : ℚ), (0 : ℚ)) 0).min_y ≤
        (NumberStampAction.get_bounds ((0 : ℚ), (0 : ℚ)) 0).max_y) :=
  get_bounds_min_le_max [] ((0 : ℚ), (0 : ℚ)) ((0 : ℚ), (0 : ℚ)) ((0 : ℚ), (0 : ℚ)) []
    (1, 1) 0 0 0 (by norm_num) (by norm_num) (by norm_num) (by norm_num) (by norm_num)

/-! ## C10: Highlighter's style-state restoration -/

/-- C10 counterexample: a Highlighter `draw` call with fewer than 2 points
returns without touching the surface, so if the operator was not source-over
before the call it is still not source-over after it. -/
theorem highlighter_state_not_restored_on_noop :
    (HighlighterAction.drawState
        ⟨CairoOperator.multiply, CairoLineCap.butt, (0, 0, 0, 0), 0⟩ [] (0, 0, 0, 1) 1 1).operator
      ≠ CairoOperator.over := by decide

/-- C10 amended: a Highlighter `draw` call with at least 2 points always exits
with the compositing operator restored to source-over and the line cap to
round (its source color and scaled line width remain set); a call with fewer
than 2 points returns early and leaves the surface state entirely unchanged. -/
theorem highlighter_draw_state_spec (s : Surface) (stroke : List Point)
    (color : ℚ × ℚ × ℚ × ℚ) (pen_size scale : ℚ) :
    HighlighterAction.drawState s stroke color pen_size scale =
      if stroke.length < 2 then s
      else ⟨CairoOperator.over, CairoLineCap.round, color, pen_size * scale⟩ := by
  unfold HighlighterAction.drawState
  split <;> rfl

/-! ## C3: the randomization pass permutes pixels

Byte-level lemmas about `swapBytes`, disjointness of pixel byte ranges,
a multiset transposition lemma, and the loop invariant. -/

theorem getD_set (l : List ℕ) (i j a : ℕ) :
    (l.set i a).getD j 0 = if i = j ∧ j < l.length then a else l.getD j 0 := by
  induction l generalizing i j with
  | nil => simp
  | cons b t ih =>
    cases i with
    | zero =>
      cases j with
      | zero => simp
      | succ j => simp
    | succ i =>
      cases j with
      | zero => simp
      | succ j =>
        simp only [List.set_cons_succ, List.getD_cons_succ, List.length_cons]
        rw [ih]
        by_cases hc : i = j ∧ j < t.length
        · rw [if_pos hc, if_pos (by omega)]
        · rw [if_neg hc, if_neg (by omega)]

theorem swapBytes_length (px : List ℕ) (i1 i2 ch : ℕ) :
    (swapBytes px i1 i2 ch).length = px.length := by
  rw [swapBytes]
  generalize List.range ch = l
  induction l generalizing px with
  | nil => rfl
  | cons c t ih =>
    rw [List.foldl_cons]
    rw [ih]
    simp

/-- After `swapBytes`, reads inside the `i1` range come from the `i2` range
and vice versa; everything else is untouched (for disjoint in-bounds ranges). -/
theorem swapBytes_getD : ∀ (ch : ℕ) (px : List ℕ) (i1 i2 : ℕ),
    (i1 + ch ≤ i2 ∨ i2 + ch ≤ i1) → i1 + ch ≤ px.length → i2 + ch ≤ px.length →
    ∀ j : ℕ, (swapBytes px i1 i2 ch).getD j 0 =
      if i1 ≤ j ∧ j < i1 + ch then px.getD (i2 + (j - i1)) 0
      else if i2 ≤ j ∧ j < i2 + ch then px.getD (i1 + (j - i2)) 0
      else px.getD j 0 := by
  intro ch
  induction ch with
  | zero =>
    intro px i1 i2 hd h1 h2 j
    rw [show swapBytes px i1 i2 0 = px from rfl]
    rw [if_neg (by omega), if_neg (by omega)]
  | succ n ih =>
    intro px i1 i2 hd h1 h2 j
    have hd' : i1 + n ≤ i2 ∨ i2 + n ≤ i1 := by omega
    have h1' : i1 + n ≤ px.length := by omega
    have h2' : i2 + n ≤ px.length := by omega
    have hlen : (swapBytes px i1 i2 n).length = px.length := swapBytes_length px i1 i2 n
    have hstep : swapBytes px i1 i2 (n + 1) =
        ((swapBytes px i1 i2 n).set (i1 + n) ((swapBytes px i1 i2 n).getD (i2 + n) 0)).set
          (i2 + n) ((swapBytes px i1 i2 n).getD (i1 + n) 0) := by
      simp only [swapBytes, List.range_succ, List.foldl_append, List.foldl_cons, List.foldl_nil]
    have ha : (swapBytes px i1 i2 n).getD (i1 + n) 0 = px.getD (i1 + n) 0 := by
      rw [ih px i1 i2 hd' h1' h2' (i1 + n), if_neg (by omega), if_neg (by omega)]
    have hb : (swapBytes px i1 i2 n).getD (i2 + n) 0 = px.getD (i2 + n) 0 := by
      rw [ih px i1 i2 hd' h1' h2' (i2 + n), if_neg (by omega), if_neg (by omega)]
    rw [hstep, ha, hb, getD_set, List.length_set, hlen]
    by_cases hcase : j = i2 + n
    · rw [if_pos ⟨hcase.symm, by omega⟩]
      rw [if_neg (by omega), if_pos (⟨by omega, by omega⟩ : i2 ≤ j ∧ j < i2 + (n + 1))]
      have hidx : i1 + (j - i2) = i1 + n := by omega
      rw [hidx]
    · rw [if_neg (by omega), getD_set, hlen]
      by_cases hcase2 : j = i1 + n
      · rw [if_pos ⟨hcase2.symm, by omega⟩]
        rw [if_pos (⟨by omega, by omega⟩ : i1 ≤ j ∧ j < i1 + (n + 1))]
        have hidx : i2 + (j - i1) = i2 + n := by omega
        rw [hidx]
      · rw [if_neg (by omega)]
        rw [ih px i1 i2 hd' h1' h2' j]
        by_cases ha1 : i1 ≤ j ∧ j < i1 + n
        · rw [if_pos ha1, if_pos (by omega)]
        · rw [if_neg ha1]
          by_cases ha2 : i2 ≤ j ∧ j < i2 + n
          · rw [if_pos ha2, if_neg (by omega), if_pos (by omega)]
          · rw [if_neg ha2, if_neg (by omega), if_neg (by omega)]

theorem pixOffset_step (stride ch w : ℕ) (hstride : w * ch ≤ stride)
    (p1 p2 : ℕ × ℕ) (h1x : p1.1 < w) (hy : p1.2 < p2.2) :
    pixOffset stride ch p1 + ch ≤ pixOffset stride ch p2 := by
  have e1 : p1.1 * ch + ch ≤ w * ch := by
    have hmul : (p1.1 + 1) * ch ≤ w * ch := Nat.mul_le_mul_right ch (by omega)
    calc p1.1 * ch + ch = (p1.1 + 1) * ch := by ring
      _ ≤ w * ch := hmul
  have e2 : (p1.2 + 1) * stride ≤ p2.2 * stride := Nat.mul_le_mul_right stride (by omega)
  calc pixOffset stride ch p1 + ch = p1.2 * stride + (p1.1 * ch + ch) := by
        rw [pixOffset]; ring
    _ ≤ p1.2 * stride + stride := Nat.add_le_add_left (le_trans e1 hstride) _
    _ = (p1.2 + 1) * stride := by ring
    _ ≤ p2.2 * stride := e2
    _ ≤ pixOffset stride ch p2 := by rw [pixOffset]; exact Nat.le_add_right _ _

theorem pixOffset_row (stride ch : ℕ) (p1 p2 : ℕ × ℕ) (hyy : p1.2 = p2.2)
    (hxx : p1.1 < p2.1) : pixOffset stride ch p1 + ch ≤ pixOffset stride ch p2 := by
  have e1 : (p1.1 + 1) * ch ≤ p2.1 * ch := Nat.mul_le_mul_right ch (by omega)
  calc pixOffset stride ch p1 + ch = p1.2 * stride + (p1.1 + 1) * ch := by
        rw [pixOffset]; ring
    _ ≤ p1.2 * stride + p2.1 * ch := Nat.add_le_add_left e1 _
    _ = pixOffset stride ch p2 := by rw [pixOffset, hyy]

/-- Distinct valid grid positions occupy disjoint byte ranges when a row of
pixels fits in the rowstride. -/
theorem pixOffset_disjoint (stride ch w h : ℕ) (hstride : w * ch ≤ stride)
    (p1 p2 : ℕ × ℕ) (h1 : p1.1 < w ∧ p1.2 < h) (h2 : p2.1 < w ∧ p2.2 < h)
    (hne : p1 ≠ p2) :
    pixOffset stride ch p1 + ch ≤ pixOffset stride ch p2 ∨
    pixOffset stride ch p2 + ch ≤ pixOffset stride ch p1 := by
  rcases Nat.lt_trichotomy p1.2 p2.2 with hy | hy | hy
  · exact Or.inl (pixOffset_step stride ch w hstride p1 p2 h1.1 hy)
  · rcases Nat.lt_trichotomy p1.1 p2.1 with hx | hx | hx
    · exact Or.inl (pixOffset_row stride ch p1 p2 hy hx)
    · exact absurd (Prod.ext_iff.2 ⟨hx, hy⟩) hne
    · exact Or.inr (pixOffset_row stride ch p2 p1 hy.symm hx)
  · exact Or.inr (pixOffset_step stride ch w hstride p2 p1 h2.1 hy)

theorem pixOffset_add_le (stride ch w h : ℕ)
    (p : ℕ × ℕ) (hpx : p.1 < w) (hpy : p.2 < h) :
    pixOffset stride ch p + ch ≤ (h - 1) * stride + w * ch := by
  have e1 : p.1 * ch + ch ≤ w * ch := by
    have hmul : (p.1 + 1) * ch ≤ w * ch := Nat.mul_le_mul_right ch (by omega)
    calc p.1 * ch + ch = (p.1 + 1) * ch := by ring
      _ ≤ w * ch := hmul
  have e2 : p.2 * stride ≤ (h - 1) * stride := Nat.mul_le_mul_right stride (by omega)
  calc pixOffset stride ch p + ch = p.2 * stride + (p.1 * ch + ch) := by rw [pixOffset]; ring
    _ ≤ (h - 1) * stride + w * ch := Nat.add_le_add e2 e1

/-- Swapping the byte ranges of two distinct valid pixels exchanges exactly
those two channel tuples and leaves every other pixel's tuple unchanged. -/
theorem pixelAt_swapBytes (px : List ℕ) (stride ch w h : ℕ)
    (hstride : w * ch ≤ stride) (hlen : (h - 1) * stride + w * ch ≤ px.length)
    (p1 p2 q : ℕ × ℕ)
    (hp1 : p1.1 < w ∧ p1.2 < h) (hp2 : p2.1 < w ∧ p2.2 < h) (hq : q.1 < w ∧ q.2 < h)
    (hne : p1 ≠ p2) :
    pixelAt (swapBytes px (pixOffset stride ch p1) (pixOffset stride ch p2) ch) stride ch q =
      if q = p1 then pixelAt px stride ch p2
      else if q = p2 then pixelAt px stride ch p1
      else pixelAt px stride ch q := by
  have hd := pixOffset_disjoint stride ch w h hstride p1 p2 hp1 hp2 hne
  have hL1 : pixOffset stride ch p1 + ch ≤ px.length :=
    le_trans (pixOffset_add_le stride ch w h p1 hp1.1 hp1.2) hlen
  have hL2 : pixOffset stride ch p2 + ch ≤ px.length :=
    le_trans (pixOffset_add_le stride ch w h p2 hp2.1 hp2.2) hlen
  by_cases hq1 : q = p1
  · subst hq1
    rw [if_pos rfl]
    refine List.map_congr_left fun c hc => ?_
    have hcch : c < ch := List.mem_range.1 hc
    rw [swapBytes_getD ch px _ _ hd hL1 hL2 (pixOffset stride ch q + c)]
    rw [if_pos ⟨by omega, by omega⟩]
    have hidx : pixOffset stride ch p2 + (pixOffset stride ch q + c - pixOffset stride ch q) =
        pixOffset stride ch p2 + c := by omega
    rw [hidx]
  · by_cases hq2 : q = p2
    · subst hq2
      rw [if_neg hq1, if_pos rfl]
      refine List.map_congr_left fun c hc => ?_
      have hcch : c < ch := List.mem_range.1 hc
      rw [swapBytes_getD ch px _ _ hd hL1 hL2 (pixOffset stride ch q + c)]
      rw [if_neg (by omega), if_pos ⟨by omega, by omega⟩]
      have hidx : pixOffset stride ch p1 + (pixOffset stride ch q + c - pixOffset stride ch q) =
          pixOffset stride ch p1 + c := by omega
      rw [hidx]
    · have hdq1 := pixOffset_disjoint stride ch w h hstride q p1 hq hp1 hq1
      have hdq2 := pixOffset_disjoint stride ch w h hstride q p2 hq hp2 hq2
      rw [if_neg hq1, if_neg hq2]
      refine List.map_congr_left fun c hc => ?_
      have hcch : c < ch := List.mem_range.1 hc
      rw [swapBytes_getD ch px _ _ hd hL1 hL2 (pixOffset stride ch q + c)]
      rw [if_neg (by omega), if_neg (by omega)]

theorem multiset_not_mem_erase_self {α : Type} [DecidableEq α] {s : Multiset α}
    (h : s.Nodup) (a : α) : a ∉ s.erase a := by
  intro hmem
  have h1 := Multiset.count_erase_self a s
  have h2 : 1 ≤ Multiset.count a (s.erase a) := Multiset.one_le_count_iff_mem.2 hmem
  have h3 : Multiset.count a s ≤ 1 := Multiset.nodup_iff_count_le_one.1 h a
  omega

/-- Mapping a function that exchanges its values at two distinct elements of
a duplicate-free multiset yields the same multiset as mapping the original. -/
theorem map_swap_multiset {α β : Type} [DecidableEq α] (s : Multiset α) (hnd : s.Nodup)
    (f f' : α → β) (p1 p2 : α) (h1 : p1 ∈ s) (h2 : p2 ∈ s) (hne : p1 ≠ p2)
    (hf : ∀ q ∈ s, f' q = if q = p1 then f p2 else if q = p2 then f p1 else f q) :
    s.map f' = s.map f := by
  have h2' : p2 ∈ s.erase p1 := (Multiset.mem_erase_of_ne hne.symm).2 h2
  have hs1 : p1 ::ₘ s.erase p1 = s := Multiset.cons_erase h1
  have hs2 : p2 ::ₘ (s.erase p1).erase p2 = s.erase p1 := Multiset.cons_erase h2'
  have hnd1 : (s.erase p1).Nodup := hnd.erase p1
  have hp1e : p1 ∉ s.erase p1 := multiset_not_mem_erase_self hnd p1
  have hp2e : p2 ∉ (s.erase p1).erase p2 := multiset_not_mem_erase_self hnd1 p2
  have htmap : ((s.erase p1).erase p2).map f' = ((s.erase p1).erase p2).map f := by
    refine Multiset.map_congr rfl fun q hq => ?_
    have hqs : q ∈ s := Multiset.mem_of_mem_erase (Multiset.mem_of_mem_erase hq)
    have hq1 : q ≠ p1 := by rintro rfl; exact hp1e (Multiset.mem_of_mem_erase hq)
    have hq2 : q ≠ p2 := by rintro rfl; exact hp2e hq
    rw [hf q hqs, if_neg hq1, if_neg hq2]
  calc s.map f' = (p1 ::ₘ p2 ::ₘ (s.erase p1).erase p2).map f' := by rw [hs2, hs1]
    _ = f' p1 ::ₘ f' p2 ::ₘ ((s.erase p1).erase p2).map f' := by
        rw [Multiset.map_cons, Multiset.map_cons]
    _ = f p2 ::ₘ f p1 ::ₘ ((s.erase p1).erase p2).map f := by
        rw [hf p1 h1, if_pos rfl, hf p2 h2, if_neg hne.symm, if_pos rfl, htmap]
    _ = f p1 ::ₘ f p2 ::ₘ ((s.erase p1).erase p2).map f := by rw [Multiset.cons_swap]
    _ = (p1 ::ₘ p2 ::ₘ (s.erase p1).erase p2).map f := by
        rw [Multiset.map_cons, Multiset.map_cons]
    _ = s.map f := by rw [hs2, hs1]

theorem mem_grid {w h : ℕ} (q : ℕ × ℕ) :
    q ∈ (Finset.range w ×ˢ Finset.range h).val ↔ q.1 < w ∧ q.2 < h := by
  rw [Finset.mem_val, Finset.mem_product, Finset.mem_range, Finset.mem_range]

/-- Every entry of the neighbor list is an in-bounds grid position distinct
from the center (the offset table contains no `(0, 0)`). -/
theorem neighborList_valid (w h x y : ℕ) (n : ℕ × ℕ) (hn : n ∈ neighborList w h x y) :
    n.1 < w ∧ n.2 < h ∧ n ≠ (x, y) := by
  obtain ⟨d, hd, heq⟩ := List.mem_filterMap.1 hn
  simp only [neighborList] at heq
  split at heq
  case isFalse => exact absurd heq (by simp)
  case isTrue hc =>
    obtain ⟨hc1, hc2, hc3, hc4⟩ := hc
    injection heq with heq
    subst heq
    refine ⟨by dsimp only; omega, by dsimp only; omega, ?_⟩
    intro he
    rw [Prod.mk.injEq] at he
    have hd1 : d.1 = 0 := by omega
    have hd2 : d.2 = 0 := by omega
    have hd0 : d = ((0 : ℤ), (0 : ℤ)) := Prod.ext_iff.2 ⟨hd1, hd2⟩
    rw [hd0] at hd
    exact absurd hd (by decide)

theorem choice_mem (l : List (ℕ × ℕ)) (g : PyRandom.RandomState) (hl : l ≠ []) :
    (PyRandom.choice l g).1 ∈ l := by
  have hlen : 0 < l.length := List.length_pos.2 hl
  have hlt : (PyRandom.nextNat g).1 % l.length < l.length := Nat.mod_lt _ hlen
  simp only [PyRandom.choice]
  rw [List.getD_eq_getElem?_getD, List.getElem?_eq_getElem hlt, Option.getD_some]
  exact List.getElem_mem hlt

theorem foldl_preserves {σ α : Type} (Inv : σ → Prop) (f : σ → α → σ) (l : List α)
    (hstep : ∀ s, ∀ a ∈ l, Inv s → Inv (f s a)) (s0 : σ) (h0 : Inv s0) :
    Inv (l.foldl f s0) := by
  induction l generalizing s0 with
  | nil => exact h0
  | cons a t ih =>
    rw [List.foldl_cons]
    exact ih (fun s b hb hs => hstep s b (List.mem_cons_of_mem a hb) hs)
      (f s0 a) (hstep s0 a (List.mem_cons_self a t) h0)

/-- One loop step preserves buffer length and the pixel multiset. -/
theorem randomizeCell_preserves (w h stride ch : ℕ) (hstride : w * ch ≤ stride)
    (len0 : ℕ) (hlen0 : (h - 1) * stride + w * ch ≤ len0)
    (x y : ℕ) (hx : x < w) (hy : y < h)
    (ms0 : Multiset (List ℕ)) (s : List ℕ × PyRandom.RandomState)
    (hlen : s.1.length = len0) (hms : pixelMS s.1 w h stride ch = ms0) :
    (randomizeCell w h stride ch x y s).1.length = len0 ∧
    pixelMS (randomizeCell w h stride ch x y s).1 w h stride ch = ms0 := by
  simp only [randomizeCell]
  split
  case isFalse => exact ⟨hlen, hms⟩
  case isTrue =>
    split
    case isTrue => exact ⟨hlen, hms⟩
    case isFalse hne =>
      have hmem := choice_mem (neighborList w h x y) (PyRandom.random s.2).2 hne
      have hvalid := neighborList_valid w h x y _ hmem
      have hne' : ((x, y) : ℕ × ℕ) ≠
          (PyRandom.choice (neighborList w h x y) (PyRandom.random s.2).2).1 :=
        fun e => hvalid.2.2 e.symm
      have hlenpx : (h - 1) * stride + w * ch ≤ s.1.length := by rw [hlen]; exact hlen0
      constructor
      · dsimp only
        rw [swapBytes_length]
        exact hlen
      · dsimp only
        rw [← hms]
        unfold pixelMS
        refine map_swap_multiset _ (Finset.nodup _) _ _ (x, y) _
          ((mem_grid _).2 ⟨hx, hy⟩) ((mem_grid _).2 ⟨hvalid.1, hvalid.2.1⟩) hne' ?_
        intro q hq
        exact pixelAt_swapBytes s.1 stride ch w h hstride hlenpx (x, y) _ q
          ⟨hx, hy⟩ ⟨hvalid.1, hvalid.2.1⟩ ((mem_grid q).1 hq) hne'

/-- The double loop preserves buffer length and the pixel multiset. -/
theorem randomizeLoop_preserves (w h stride ch : ℕ) (hstride : w * ch ≤ stride)
    (px : List ℕ) (hlen : (h - 1) * stride + w * ch ≤ px.length)
    (g : PyRandom.RandomState) :
    (randomizeLoop w h stride ch px g).1.length = px.length ∧
    pixelMS (randomizeLoop w h stride ch px g).1 w h stride ch =
      pixelMS px w h stride ch := by
  unfold randomizeLoop
  refine foldl_preserves
    (fun s => s.1.length = px.length ∧ pixelMS s.1 w h stride ch = pixelMS px w h stride ch)
    _ _ ?_ (px, g) ⟨rfl, rfl⟩
  intro s y hymem hs
  refine foldl_preserves
    (fun s => s.1.length = px.length ∧ pixelMS s.1 w h stride ch = pixelMS px w h stride ch)
    _ _ ?_ s hs
  intro s' x hxmem hs'
  exact randomizeCell_preserves w h stride ch hstride px.length hlen x y
    (List.mem_range.1 hxmem) (List.mem_range.1 hymem) _ s' hs'.1 hs'.2

/-- C3: on a well-formed input buffer, `_randomize_pixels` returns a buffer
with unchanged width, height, rowstride and alpha flag whose multiset of
per-pixel channel tuples equals the input's: the pass only swaps whole
pixels with in-bounds grid neighbors and never creates or alters channel
values. -/
theorem randomize_pixels_permutation (g : PyRandom.RandomState) (pb : Pixbuf)
    (hwf : pb.wf) :
    (CensorAction.randomize_pixels g pb).1.width = pb.width ∧
    (CensorAction.randomize_pixels g pb).1.height = pb.height ∧
    (CensorAction.randomize_pixels g pb).1.rowstride = pb.rowstride ∧
    (CensorAction.randomize_pixels g pb).1.hasAlpha = pb.hasAlpha ∧
    (CensorAction.randomize_pixels g pb).1.pixelMultiset = pb.pixelMultiset := by
  obtain ⟨hstride, hlen, hch⟩ := hwf
  have hloop := randomizeLoop_preserves pb.width pb.height pb.rowstride pb.nChannels
    hstride pb.pixels hlen (PyRandom.seed 42)
  refine ⟨rfl, rfl, rfl, rfl, ?_⟩
  simp only [CensorAction.randomize_pixels, Pixbuf.newFromData, Pixbuf.pixelMultiset]
  rw [← hch]
  exact hloop.2

/-- Witness for C3 on a concrete 2×2 RGB buffer (rowstride 6). -/
theorem randomize_pixels_permutation_witness :
    (Pixbuf.mk 2 2 6 3 false [0, 1, 2, 3, 4, 5, 6, 7, 8, 9, 10, 11]).wf ∧
    ((CensorAction.randomize_pixels ⟨0⟩
        (Pixbuf.mk 2 2 6 3 false [0, 1, 2, 3, 4, 5, 6, 7, 8, 9, 10, 11])).1.width =
        (Pixbuf.mk 2 2 6 3 false [0, 1, 2, 3, 4, 5, 6, 7, 8, 9, 10, 11]).width ∧
      (CensorAction.randomize_pixels ⟨0⟩
        (Pixbuf.mk 2 2 6 3 false [0, 1, 2, 3, 4, 5, 6, 7, 8, 9, 10, 11])).1.height =
        (Pixbuf.mk 2 2 6 3 false [0, 1, 2, 3, 4, 5, 6, 7, 8, 9, 10, 11]).height ∧
      (CensorAction.randomize_pixels ⟨0⟩
        (Pixbuf.mk 2 2 6 3 false [0, 1, 2, 3, 4, 5, 6, 7, 8, 9, 10, 11])).1.rowstride =
        (Pixbuf.mk 2 2 6 3 false [0, 1, 2, 3, 4, 5, 6, 7, 8, 9, 10, 11]).rowstride ∧
      (CensorAction.randomize_pixels ⟨0⟩
        (Pixbuf.mk 2 2 6 3 false [0, 1, 2, 3, 4, 5, 6, 7, 8, 9, 10, 11])).1.hasAlpha =
        (Pixbuf.mk 2 2 6 3 false [0, 1, 2, 3, 4, 5, 6, 7, 8, 9, 10, 11]).hasAlpha ∧
      (CensorAction.randomize_pixels ⟨0⟩
        (Pixbuf.mk 2 2 6 3 false [0, 1, 2, 3, 4, 5, 6, 7, 8, 9, 10, 11])).1.pixelMultiset =
        (Pixbuf.mk 2 2 6 3 false [0, 1, 2, 3, 4, 5, 6, 7, 8, 9, 10, 11]).pixelMultiset) :=
  ⟨by decide, randomize_pixels_permutation ⟨0⟩
    (Pixbuf.mk 2 2 6 3 false [0, 1, 2, 3, 4, 5, 6, 7, 8, 9, 10, 11]) (by decide)⟩

end Gradia
